import Mathlib

/-!
Shallow embedding of the `fn_cache` memoization library.

The map-backed caches (`HashCache`, `BTreeCache`, `GenericCache` over a
`SparseContainer`) are modelled by an association list of entries together
with a counter of rule invocations.  The user-supplied computation rule is
modelled as a program in a small free monad `Prog` whose only effect is the
view lookup `getv`, mirroring the `RefCache` handle which exposes exactly
`get`/`get_many` to the rule; `abort` models a panic inside the rule.
Recursion is interpreted with explicit fuel; `Res.timeout` is the
out-of-fuel artifact, `Res.fault` models a propagating panic.

`VecCache` is modelled separately over a plain list of outputs, following
the gapless fill loop of `vec_cache.rs`.
-/

namespace FnCacheModel

/-- Lookup in an association list, first matching key wins.  Models lookup in
the backing map (`HashMap::get` / `SparseContainer::get`). -/
def lookupA {I O : Type} [DecidableEq I] : List (I × O) → I → Option O
  | [], _ => none
  | (a, b) :: t, k => if a = k then some b else lookupA t k

/-- Models `HashMap::contains_key` / `Cache::has`. -/
def hasA {I O : Type} [DecidableEq I] (m : List (I × O)) (k : I) : Bool :=
  (lookupA m k).isSome

/-- Models `self.entry(input).or_insert(output)`, the `Cache::put`
implementation for `HashMap` in `cache.rs`: insert-if-absent, returning the
value now stored under the key (the pre-existing one when the key is present,
the freshly supplied one otherwise). -/
def putA {I O : Type} [DecidableEq I] (m : List (I × O)) (k : I) (v : O) :
    O × List (I × O) :=
  match lookupA m k with
  | some w => (w, m)
  | none => (v, m ++ [(k, v)])

/-- Models `HashMap::remove`, the `CacheRemove` implementation in
`cache.rs`: removes the entry for the key, returning its value if present. -/
def removeA {I O : Type} [DecidableEq I] :
    List (I × O) → I → Option O × List (I × O)
  | [], _ => (none, [])
  | (a, b) :: t, k =>
    if a = k then (some b, t)
    else
      let r := removeA t k
      (r.1, (a, b) :: r.2)

/-- State of a map-backed cache: the stored entries plus an instrumentation
counter of how many times the user rule has been invoked. -/
structure CState (I O : Type) where
  entries : List (I × O)
  calls : Nat
deriving DecidableEq

/-- Outcome of running a cache operation: normal return with a value and the
new state, a propagating panic (`fault`) carrying the state at unwind time,
or fuel exhaustion (`timeout`, an artifact of the fuelled interpreter that
models nonterminating recursion). -/
inductive Res (σ α : Type) where
  | ok : α → σ → Res σ α
  | fault : σ → Res σ α
  | timeout : Res σ α
deriving DecidableEq

/-- The state carried by a result, when any. -/
def resSt {σ α : Type} : Res σ α → Option σ
  | .ok _ s => some s
  | .fault s => some s
  | .timeout => none

/-- A computation-rule program for a rule that interacts with the cache only
through the restricted `RefCache` view of `generic_cache.rs`/`raw_cache.rs`:
that handle implements only `FnCache::get` and `FnCacheMany::get_many` (a
sequence of such gets) and its container field is crate-private, so `getv`
is its whole capability surface.  `ret` is normal completion, `abort` models
a panic raised by the rule.  The facade caches (`HashCache`, `VecCache`,
`BTreeCache`) instead hand the rule the cache itself; that richer handle is
modelled separately by `HProg`. -/
inductive Prog (I O : Type) : Type where
  | ret : O → Prog I O
  | getv : I → (O → Prog I O) → Prog I O
  | abort : Prog I O

/-- Run a rule program against a view function, threading the cache state.
This is the semantics of the rule body executing with a `RefCache` in hand. -/
def runP {I O σ : Type} (view : I → σ → Res σ O) : Prog I O → σ → Res σ O
  | .ret v, s => .ok v s
  | .abort, s => .fault s
  | .getv k cont, s =>
    match view k s with
    | .ok v s' => runP view (cont v) s'
    | .fault s' => .fault s'
    | .timeout => .timeout

/-- Model of `GenericCache::get` (equivalently `HashCache::get`,
`RawCache::get`, and `RefCache::get`, which all share the same logic): on a
hit return the stored value unchanged; on a miss invoke the rule with the
view (counting the invocation), then install the result with insert-if-absent
`putA` and return the value `putA` reports as stored. -/
def getF {I O : Type} [DecidableEq I] (f : I → Prog I O) :
    Nat → I → CState I O → Res (CState I O) O
  | 0, _, _ => .timeout
  | n + 1, k, s =>
    match lookupA s.entries k with
    | some v => .ok v s
    | none =>
      match runP (fun k2 s2 => getF f n k2 s2) (f k) ⟨s.entries, s.calls + 1⟩ with
      | .ok v s' => .ok (putA s'.entries k v).1 ⟨(putA s'.entries k v).2, s'.calls⟩
      | .fault s' => .fault s'
      | .timeout => .timeout

/-- First pass of `GenericCache::get_many`: `for i in &inputs { self.get(i.clone()); }`,
sequential gets left to right, discarding the returned references. -/
def getsF {I O : Type} [DecidableEq I] (f : I → Prog I O) (n : Nat) :
    List I → CState I O → Res (CState I O) Unit
  | [], s => .ok () s
  | k :: t, s =>
    match getF f n k s with
    | .ok _ s' => getsF f n t s'
    | .fault s' => .fault s'
    | .timeout => .timeout

/-- Second pass of `get_many`: `inputs.map(|i| self.cache.get(&i).unwrap())`.
Returns `none` when some key is absent (in the code that `unwrap` would
panic; it is proven unreachable after the first pass). -/
def lookupMany {I O : Type} [DecidableEq I] (m : List (I × O)) :
    List I → Option (List O)
  | [] => some []
  | k :: t =>
    match lookupA m k, lookupMany m t with
    | some v, some vs => some (v :: vs)
    | _, _ => none

/-- Model of `GenericCache::get_many`: sequential gets, then a second lookup
pass materializing the references.  A failing `unwrap` in the second pass is
modelled as a fault. -/
def getManyF {I O : Type} [DecidableEq I] (f : I → Prog I O) (n : Nat)
    (ks : List I) (s : CState I O) : Res (CState I O) (List O) :=
  match getsF f n ks s with
  | .ok _ s' =>
    match lookupMany s'.entries ks with
    | some vs => .ok vs s'
    | none => .fault s'
  | .fault s' => .fault s'
  | .timeout => .timeout

/-- Model of `VecCache::get` in `vec_cache.rs`: while the length is at most
the requested index, compute the value for the next unfilled index (the
current length) by running the rule with the cache itself as view, and append
it at the end; once the index is filled, return the element there.  The
`reserve` call in the code is a capacity hint with no observable effect and
is not modelled. -/
def vgetF {O : Type} (f : Nat → Prog Nat O) :
    Nat → Nat → List O → Res (List O) O
  | 0, _, _ => .timeout
  | n + 1, k, v =>
    if h : k < v.length then .ok (v.get ⟨k, h⟩) v
    else
      match runP (fun k2 v2 => vgetF f n k2 v2) (f v.length) v with
      | .ok val v' => vgetF f n k (v' ++ [val])
      | .fault v' => .fault v'
      | .timeout => .timeout

/-- First pass of `VecCache::get_many`: `for i in inputs { self.get(i); }`. -/
def vgetsF {O : Type} (f : Nat → Prog Nat O) (n : Nat) :
    List Nat → List O → Res (List O) Unit
  | [], v => .ok () v
  | k :: t, v =>
    match vgetF f n k v with
    | .ok _ v' => vgetsF f n t v'
    | .fault v' => .fault v'
    | .timeout => .timeout

/-- Second pass of `VecCache::get_many`: `inputs.map(|i| self.cache.get(i).unwrap())`. -/
def vlookupMany {O : Type} (v : List O) : List Nat → Option (List O)
  | [] => some []
  | k :: t =>
    match v.get? k, vlookupMany v t with
    | some w, some ws => some (w :: ws)
    | _, _ => none

/-- Model of `VecCache::get_many`: the `reserve` for the maximum requested
index is a capacity hint with no observable effect; then sequential gets in
the given order, then the lookup pass materializing the references. -/
def vgetManyF {O : Type} (f : Nat → Prog Nat O) (n : Nat)
    (ks : List Nat) (v : List O) : Res (List O) (List O) :=
  match vgetsF f n ks v with
  | .ok _ v' =>
    match vlookupMany v' ks with
    | some ws => .ok ws v'
    | none => .fault v'
  | .fault v' => .fault v'
  | .timeout => .timeout

/-- The rule for index `i` performs view lookups only at indices strictly
below `m` (used with `m = i`: recursive lookups stay below the requested
index, the documented usage pattern of `VecCache`). -/
inductive Below {O : Type} (m : Nat) : Prog Nat O → Prop where
  | ret : ∀ v, Below m (.ret v)
  | abort : Below m .abort
  | getv : ∀ k cont, k < m → (∀ v, Below m (cont v)) → Below m (.getv k cont)

/-- All view lookups of the program are at keys of measure strictly below
`m`, hereditarily.  `KeysLt μ (μ j) (f j)` for all `j` says the rule has
acyclic (measure-decreasing) recursion. -/
inductive KeysLt {I O : Type} (μ : I → Nat) (m : Nat) : Prog I O → Prop where
  | ret : ∀ v, KeysLt μ m (.ret v)
  | abort : KeysLt μ m .abort
  | getv : ∀ k cont, μ k < m → (∀ v, KeysLt μ m (cont v)) → KeysLt μ m (.getv k cont)

/-- Concrete recursive rule: value at `k` is one more than the value at
`k - 1`, base case `0`. -/
def cRule : Nat → Prog Nat Nat := fun k =>
  if k = 0 then .ret 0 else .getv (k - 1) (fun w => .ret (w + 1))

/-- The Fibonacci rule of the spec scenario: `fib(0)=0`, `fib(1)=1`,
`fib(n)=fib(n-1)+fib(n-2)`, recursing through the cache view. -/
def fibRule : Nat → Prog Nat Nat := fun n =>
  if n < 2 then .ret n
  else .getv (n - 1) (fun a => .getv (n - 2) (fun b => .ret (a + b)))

/-- The cache state reached by `get 10` on an empty Fibonacci cache:
entries in insertion order, `11` rule invocations. -/
def fibS : CState Nat Nat :=
  ⟨[(1, 1), (0, 0), (2, 1), (3, 2), (4, 3), (5, 5), (6, 8), (7, 13), (8, 21),
    (9, 34), (10, 55)], 11⟩

/-- Concrete `VecCache` rule: doubling, with recursive lookup one below. -/
def c5f : Nat → Prog Nat Nat := fun i =>
  if i = 0 then .ret 1 else .getv (i - 1) (fun w => .ret (w * 2))

/-- Concrete faulting rule: panics at key `0`, recurses downward otherwise. -/
def fRule : Nat → Prog Nat Nat := fun k =>
  if k = 0 then .abort else .getv (k - 1) (fun w => .ret w)

/-- A computation-rule program over the full cache handle that the facade
caches hand to the rule: `HashCache::compute` in `hash_cache.rs` (and
likewise `VecCache::compute` and `BTreeCache::compute`) invokes the rule
with `&mut self`, so besides the lookup `getv` (`FnCache::get`) the rule can
call the public cache-lifecycle operations mid-computation: `clearv` models
`clear`, `removev` models `remove`.  `reserve` is a capacity hint with no
observable effect and is not modelled.  `ret` is normal completion, `abort`
a panic. -/
inductive HProg (I O : Type) : Type where
  | ret : O → HProg I O
  | getv : I → (O → HProg I O) → HProg I O
  | clearv : HProg I O → HProg I O
  | removev : I → (Option O → HProg I O) → HProg I O
  | abort : HProg I O

/-- Run a full-handle rule program, threading the cache state: `clearv`
empties the entries (`HashMap::clear`), `removev` removes an entry and hands
the removed value to the continuation (`HashMap::remove`). -/
def hrunP {I O : Type} [DecidableEq I]
    (view : I → CState I O → Res (CState I O) O) :
    HProg I O → CState I O → Res (CState I O) O
  | .ret v, s => .ok v s
  | .abort, s => .fault s
  | .getv k cont, s =>
    match view k s with
    | .ok v s' => hrunP view (cont v) s'
    | .fault s' => .fault s'
    | .timeout => .timeout
  | .clearv cont, s => hrunP view cont ⟨[], s.calls⟩
  | .removev k cont, s =>
    hrunP view (cont (removeA s.entries k).1) ⟨(removeA s.entries k).2, s.calls⟩

/-- Model of `HashCache::get` for a rule holding the full cache handle: the
hit/miss and insert-if-absent logic is that of `getF`, but the rule program
may additionally clear and remove entries mid-computation. -/
def hgetF {I O : Type} [DecidableEq I] (f : I → HProg I O) :
    Nat → I → CState I O → Res (CState I O) O
  | 0, _, _ => .timeout
  | n + 1, k, s =>
    match lookupA s.entries k with
    | some v => .ok v s
    | none =>
      match hrunP (fun k2 s2 => hgetF f n k2 s2) (f k) ⟨s.entries, s.calls + 1⟩ with
      | .ok v s' => .ok (putA s'.entries k v).1 ⟨(putA s'.entries k v).2, s'.calls⟩
      | .fault s' => .fault s'
      | .timeout => .timeout

/-- Concrete full-handle rule that clears the cache mid-computation. -/
def hcRule : Nat → HProg Nat Nat := fun _ => .clearv (.ret 5)

theorem lookupA_append_some {I O : Type} [DecidableEq I] {m : List (I × O)}
    {k : I} {w : O} (t : List (I × O)) (h : lookupA m k = some w) :
    lookupA (m ++ t) k = some w := by
  induction m with
  | nil => simp [lookupA] at h
  | cons a r ih =>
    cases a with
    | mk x y =>
      simp only [List.cons_append, lookupA] at h ⊢
      by_cases hx : x = k
      · rw [if_pos hx] at h ⊢; exact h
      · rw [if_neg hx] at h ⊢; exact ih h

theorem lookupA_append_single {I O : Type} [DecidableEq I] {m : List (I × O)}
    {k j : I} (v : O) (h : lookupA m k = none) :
    lookupA (m ++ [(j, v)]) k = if j = k then some v else none := by
  induction m with
  | nil => simp [lookupA]
  | cons a r ih =>
    cases a with
    | mk x y =>
      simp only [List.cons_append, lookupA] at h ⊢
      by_cases hx : x = k
      · rw [if_pos hx] at h; exact absurd h (by simp)
      · rw [if_neg hx] at h ⊢; exact ih h

theorem putA_lookup {I O : Type} [DecidableEq I] (m : List (I × O)) (k : I) (v : O) :
    lookupA (putA m k v).2 k = some (putA m k v).1 := by
  rcases h : lookupA m k with _ | w
  · simp [putA, h, lookupA_append_single v h]
  · simp [putA, h]

theorem putA_ext {I O : Type} [DecidableEq I] (m : List (I × O)) (k : I) (v : O) :
    ∃ t, (putA m k v).2 = m ++ t := by
  rcases h : lookupA m k with _ | w
  · exact ⟨[(k, v)], by simp [putA, h]⟩
  · exact ⟨[], by simp [putA, h]⟩

theorem hasA_eq_false {I O : Type} [DecidableEq I] {m : List (I × O)} {k : I} :
    hasA m k = false ↔ lookupA m k = none := by
  unfold hasA
  cases lookupA m k <;> simp

theorem hasA_eq_true {I O : Type} [DecidableEq I] {m : List (I × O)} {k : I} :
    hasA m k = true ↔ ∃ w, lookupA m k = some w := by
  unfold hasA
  cases lookupA m k <;> simp

theorem runP_ext {I O σ : Type} {E : σ → σ → Prop}
    (hrefl : ∀ a, E a a)
    (htrans : ∀ a b c, E a b → E b c → E a c)
    {view : I → σ → Res σ O}
    (hview : ∀ k s s₁, resSt (view k s) = some s₁ → E s s₁)
    (p : Prog I O) : ∀ (s s₁ : σ), resSt (runP view p s) = some s₁ → E s s₁ := by
  induction p with
  | ret v =>
    intro s s₁ h
    simp [runP, resSt] at h
    exact h ▸ hrefl s
  | abort =>
    intro s s₁ h
    simp [runP, resSt] at h
    exact h ▸ hrefl s
  | getv k cont ih =>
    intro s s₁ h
    simp only [runP] at h
    cases hv : view k s with
    | ok w s2 =>
      rw [hv] at h
      exact htrans _ _ _ (hview k s s2 (by rw [hv]; rfl)) (ih w s2 s₁ h)
    | fault s2 =>
      rw [hv] at h
      simp [resSt] at h
      exact h ▸ hview k s s2 (by rw [hv]; rfl)
    | timeout =>
      rw [hv] at h
      simp [resSt] at h

theorem getF_hit {I O : Type} [DecidableEq I] (f : I → Prog I O) (n : Nat) (k : I)
    (s : CState I O) (v : O) (h : lookupA s.entries k = some v) :
    getF f (n + 1) k s = .ok v s := by
  simp [getF, h]

theorem getF_ok_lookup {I O : Type} [DecidableEq I] (f : I → Prog I O) (n : Nat)
    (k : I) (s s₁ : CState I O) (v : O) (h : getF f n k s = .ok v s₁) :
    lookupA s₁.entries k = some v := by
  cases n with
  | zero => simp [getF] at h
  | succ n =>
    rw [getF] at h
    split at h
    next w hl =>
      cases h
      exact hl
    next hl =>
      split at h
      next val s2 hr =>
        cases h
        exact putA_lookup s2.entries k val
      next s2 hr => cases h
      next hr => cases h

theorem getF_ext {I O : Type} [DecidableEq I] (f : I → Prog I O) :
    ∀ (n : Nat) (k : I) (s s₁ : CState I O),
      resSt (getF f n k s) = some s₁ → ∃ t, s₁.entries = s.entries ++ t := by
  intro n
  induction n with
  | zero => intro k s s₁ h; simp [getF, resSt] at h
  | succ n ih =>
    intro k s s₁ h
    rw [getF] at h
    split at h
    next w hl =>
      have hs : s = s₁ := by simpa [resSt] using h
      exact ⟨[], by rw [← hs]; simp⟩
    next hl =>
      split at h
      next val s2 hr =>
        have hs : ⟨(putA s2.entries k val).2, s2.calls⟩ = s₁ := by
          simpa [resSt] using h
        obtain ⟨t1, h1⟩ := runP_ext
          (E := fun a b : CState I O => ∃ t, b.entries = a.entries ++ t)
          (fun a => ⟨[], by simp⟩)
          (fun a b c hab hbc => by
            obtain ⟨u1, hu1⟩ := hab
            obtain ⟨u2, hu2⟩ := hbc
            exact ⟨u1 ++ u2, by rw [hu2, hu1, List.append_assoc]⟩)
          (fun k2 s3 s4 hh => ih k2 s3 s4 hh)
          (f k) ⟨s.entries, s.calls + 1⟩ s2 (by rw [hr]; rfl)
        obtain ⟨t2, h2⟩ := putA_ext s2.entries k val
        refine ⟨t1 ++ t2, ?_⟩
        rw [← hs]
        simp only []
        rw [h2, h1, List.append_assoc]
      next s2 hr =>
        have hs : s2 = s₁ := by simpa [resSt] using h
        obtain ⟨t1, h1⟩ := runP_ext
          (E := fun a b : CState I O => ∃ t, b.entries = a.entries ++ t)
          (fun a => ⟨[], by simp⟩)
          (fun a b c hab hbc => by
            obtain ⟨u1, hu1⟩ := hab
            obtain ⟨u2, hu2⟩ := hbc
            exact ⟨u1 ++ u2, by rw [hu2, hu1, List.append_assoc]⟩)
          (fun k2 s3 s4 hh => ih k2 s3 s4 hh)
          (f k) ⟨s.entries, s.calls + 1⟩ s2 (by rw [hr]; rfl)
        exact ⟨t1, by rw [← hs]; exact h1⟩
      next hr => simp [resSt] at h

theorem getsF_ext {I O : Type} [DecidableEq I] (f : I → Prog I O) (n : Nat) :
    ∀ (ks : List I) (s s₁ : CState I O),
      resSt (getsF f n ks s) = some s₁ → ∃ t, s₁.entries = s.entries ++ t := by
  intro ks
  induction ks with
  | nil =>
    intro s s₁ h
    simp [getsF, resSt] at h
    exact ⟨[], by rw [← h]; simp⟩
  | cons k t ih =>
    intro s s₁ h
    rw [getsF] at h
    split at h
    next u s2 hk =>
      obtain ⟨t1, h1⟩ := getF_ext f n k s s2 (by rw [hk]; rfl)
      obtain ⟨t2, h2⟩ := ih s2 s₁ h
      exact ⟨t1 ++ t2, by rw [h2, h1, List.append_assoc]⟩
    next s2 hk =>
      have hs : s2 = s₁ := by simpa [resSt] using h
      obtain ⟨t1, h1⟩ := getF_ext f n k s s2 (by rw [hk]; rfl)
      exact ⟨t1, by rw [← hs]; exact h1⟩
    next => simp [resSt] at h

theorem getsF_mem {I O : Type} [DecidableEq I] (f : I → Prog I O) (n : Nat) :
    ∀ (ks : List I) (s s₁ : CState I O), getsF f n ks s = .ok () s₁ →
      ∀ k ∈ ks, ∃ w, lookupA s₁.entries k = some w := by
  intro ks
  induction ks with
  | nil => intro s s₁ h k hk; simp at hk
  | cons k0 t ih =>
    intro s s₁ h k hk
    rw [getsF] at h
    split at h
    next u s2 hk0 =>
      rcases List.mem_cons.mp hk with rfl | hmem
      · have hl := getF_ok_lookup f n k s s2 u hk0
        obtain ⟨t2, h2⟩ := getsF_ext f n t s2 s₁ (by rw [h]; rfl)
        exact ⟨u, by rw [h2]; exact lookupA_append_some t2 hl⟩
      · exact ih s2 s₁ h k hmem
    next s2 hk0 => cases h
    next => cases h

theorem lookupMany_of {I O : Type} [DecidableEq I] (m : List (I × O)) :
    ∀ (ks : List I), (∀ k ∈ ks, ∃ w, lookupA m k = some w) →
      ∃ vs, lookupMany m ks = some vs ∧ vs.length = ks.length ∧
        ∀ (i : Nat) (k : I), ks[i]? = some k →
          ∃ w, vs[i]? = some w ∧ lookupA m k = some w := by
  intro ks
  induction ks with
  | nil =>
    intro _
    refine ⟨[], rfl, rfl, ?_⟩
    intro i k h
    simp at h
  | cons k0 t ih =>
    intro hall
    obtain ⟨w0, hw0⟩ := hall k0 (List.mem_cons_self k0 t)
    obtain ⟨vs, hvs, hlen, hcorr⟩ := ih (fun k hk => hall k (List.mem_cons_of_mem _ hk))
    refine ⟨w0 :: vs, ?_, ?_, ?_⟩
    · simp [lookupMany, hw0, hvs]
    · simp [hlen]
    · intro i k hik
      cases i with
      | zero =>
        simp at hik
        subst hik
        exact ⟨w0, by simp, hw0⟩
      | succ i =>
        simp only [List.getElem?_cons_succ] at hik
        obtain ⟨w, hw1, hw2⟩ := hcorr i k hik
        exact ⟨w, by simpa using hw1, hw2⟩

theorem vget_hit {O : Type} (f : Nat → Prog Nat O) (n k : Nat) (v : List O)
    (h : k < v.length) :
    vgetF f (n + 1) k v = .ok (v.get ⟨k, h⟩) v := by
  rw [vgetF]
  rw [dif_pos h]

theorem vget_hit_inv {O : Type} (f : Nat → Prog Nat O) (n k : Nat)
    (v v₁ : List O) (a : O) (hk : k < v.length) (h : vgetF f n k v = .ok a v₁) :
    v₁ = v := by
  cases n with
  | zero => simp [vgetF] at h
  | succ n =>
    rw [vget_hit f n k v hk] at h
    cases h
    rfl

theorem vgetF_ext {O : Type} (f : Nat → Prog Nat O) :
    ∀ (n k : Nat) (v v₁ : List O),
      resSt (vgetF f n k v) = some v₁ → ∃ t, v₁ = v ++ t := by
  intro n
  induction n with
  | zero => intro k v v₁ h; simp [vgetF, resSt] at h
  | succ n ih =>
    intro k v v₁ h
    rw [vgetF] at h
    split at h
    next hk =>
      have hv : v = v₁ := by simpa [resSt] using h
      exact ⟨[], by rw [← hv]; simp⟩
    next hk =>
      split at h
      next val v2 hr =>
        obtain ⟨t1, h1⟩ := runP_ext
          (E := fun a b : List O => ∃ t, b = a ++ t)
          (fun a => ⟨[], by simp⟩)
          (fun a b c hab hbc => by
            obtain ⟨u1, hu1⟩ := hab
            obtain ⟨u2, hu2⟩ := hbc
            exact ⟨u1 ++ u2, by rw [hu2, hu1, List.append_assoc]⟩)
          (fun k2 v3 v4 hh => ih k2 v3 v4 hh)
          (f v.length) v v2 (by rw [hr]; rfl)
        obtain ⟨t2, h2⟩ := ih k (v2 ++ [val]) v₁ h
        exact ⟨t1 ++ [val] ++ t2, by rw [h2, h1]; simp⟩
      next v2 hr =>
        have hs : v2 = v₁ := by simpa [resSt] using h
        obtain ⟨t1, h1⟩ := runP_ext
          (E := fun a b : List O => ∃ t, b = a ++ t)
          (fun a => ⟨[], by simp⟩)
          (fun a b c hab hbc => by
            obtain ⟨u1, hu1⟩ := hab
            obtain ⟨u2, hu2⟩ := hbc
            exact ⟨u1 ++ u2, by rw [hu2, hu1, List.append_assoc]⟩)
          (fun k2 v3 v4 hh => ih k2 v3 v4 hh)
          (f v.length) v v2 (by rw [hr]; rfl)
        exact ⟨t1, by rw [← hs]; exact h1⟩
      next hr => simp [resSt] at h

theorem vgetF_ok_len {O : Type} (f : Nat → Prog Nat O) :
    ∀ (n k : Nat) (v v₁ : List O) (a : O),
      vgetF f n k v = .ok a v₁ → k < v₁.length := by
  intro n
  induction n with
  | zero => intro k v v₁ a h; simp [vgetF] at h
  | succ n ih =>
    intro k v v₁ a h
    rw [vgetF] at h
    split at h
    next hk =>
      cases h
      exact hk
    next hk =>
      split at h
      next val v2 hr => exact ih k (v2 ++ [val]) v₁ a h
      next v2 hr => cases h
      next hr => cases h

theorem vgetsF_ext {O : Type} (f : Nat → Prog Nat O) (n : Nat) :
    ∀ (ks : List Nat) (v v₁ : List O),
      resSt (vgetsF f n ks v) = some v₁ → ∃ t, v₁ = v ++ t := by
  intro ks
  induction ks with
  | nil =>
    intro v v₁ h
    simp [vgetsF, resSt] at h
    exact ⟨[], by rw [← h]; simp⟩
  | cons k t ih =>
    intro v v₁ h
    rw [vgetsF] at h
    split at h
    next u v2 hk =>
      obtain ⟨t1, h1⟩ := vgetF_ext f n k v v2 (by rw [hk]; rfl)
      obtain ⟨t2, h2⟩ := ih v2 v₁ h
      exact ⟨t1 ++ t2, by rw [h2, h1, List.append_assoc]⟩
    next v2 hk =>
      have hs : v2 = v₁ := by simpa [resSt] using h
      obtain ⟨t1, h1⟩ := vgetF_ext f n k v v2 (by rw [hk]; rfl)
      exact ⟨t1, by rw [← hs]; exact h1⟩
    next => simp [resSt] at h

theorem vgetsF_mem {O : Type} (f : Nat → Prog Nat O) (n : Nat) :
    ∀ (ks : List Nat) (v v₁ : List O), vgetsF f n ks v = .ok () v₁ →
      ∀ k ∈ ks, k < v₁.length := by
  intro ks
  induction ks with
  | nil => intro v v₁ h k hk; simp at hk
  | cons k0 t ih =>
    intro v v₁ h k hk
    rw [vgetsF] at h
    split at h
    next u v2 hk0 =>
      rcases List.mem_cons.mp hk with rfl | hmem
      · have hl := vgetF_ok_len f n k v v2 u hk0
        obtain ⟨t2, h2⟩ := vgetsF_ext f n t v2 v₁ (by rw [h]; rfl)
        rw [h2]
        simp only [List.length_append]
        omega
      · exact ih v2 v₁ h k hmem
    next v2 hk0 => cases h
    next => cases h

theorem vlookupMany_of {O : Type} (v : List O) :
    ∀ (ks : List Nat), (∀ k ∈ ks, k < v.length) →
      ∃ ws, vlookupMany v ks = some ws ∧ ws.length = ks.length ∧
        ∀ (i k : Nat), ks[i]? = some k →
          ∃ w, ws[i]? = some w ∧ v[k]? = some w := by
  intro ks
  induction ks with
  | nil =>
    intro _
    refine ⟨[], rfl, rfl, ?_⟩
    intro i k h
    simp at h
  | cons k0 t ih =>
    intro hall
    have hk0 : k0 < v.length := hall k0 (List.mem_cons_self k0 t)
    obtain ⟨ws, hws, hlen, hcorr⟩ := ih (fun k hk => hall k (List.mem_cons_of_mem _ hk))
    refine ⟨v.get ⟨k0, hk0⟩ :: ws, ?_, ?_, ?_⟩
    · simp [vlookupMany, hws, List.getElem?_eq_getElem hk0]
    · simp [hlen]
    · intro i k hik
      cases i with
      | zero =>
        simp at hik
        subst hik
        exact ⟨v.get ⟨k0, hk0⟩, by simp, by simp [List.getElem?_eq_getElem hk0]⟩
      | succ i =>
        simp only [List.getElem?_cons_succ] at hik
        obtain ⟨w, hw1, hw2⟩ := hcorr i k hik
        exact ⟨w, by simpa using hw1, hw2⟩

theorem runP_below_fix {O : Type} (f : Nat → Prog Nat O) (n m : Nat)
    (p : Prog Nat O) (hb : Below m p) :
    ∀ (v : List O) (a : O) (v₁ : List O), m ≤ v.length →
      runP (fun k2 v2 => vgetF f n k2 v2) p v = .ok a v₁ → v₁ = v := by
  induction hb with
  | ret w =>
    intro v a v₁ hm h
    simp [runP] at h
    exact h.2.symm
  | abort =>
    intro v a v₁ hm h
    simp [runP] at h
  | getv k cont hk hcont ih =>
    intro v a v₁ hm h
    simp only [runP] at h
    cases hv : vgetF f n k v with
    | ok w v2 =>
      rw [hv] at h
      have hv2 : v2 = v := vget_hit_inv f n k v v2 w (lt_of_lt_of_le hk hm) hv
      rw [hv2] at h
      exact ih w v a v₁ hm h
    | fault v2 =>
      rw [hv] at h
      simp at h
    | timeout =>
      rw [hv] at h
      simp at h

theorem vgetF_fill {O : Type} (f : Nat → Prog Nat O) (hb : ∀ i, Below i (f i)) :
    ∀ (n k : Nat) (v v₁ : List O) (a : O), vgetF f n k v = .ok a v₁ →
      v₁.length = max v.length (k + 1) ∧ (∃ t, v₁ = v ++ t) ∧
      ∃ hk : k < v₁.length, a = v₁.get ⟨k, hk⟩ := by
  intro n
  induction n with
  | zero => intro k v v₁ a h; simp [vgetF] at h
  | succ n ih =>
    intro k v v₁ a h
    rw [vgetF] at h
    split at h
    next hk =>
      cases h
      refine ⟨?_, ⟨[], by simp⟩, ⟨hk, rfl⟩⟩
      omega
    next hk =>
      split at h
      next val v2 hr =>
        have hv2 : v2 = v :=
          runP_below_fix f n v.length (f v.length) (hb v.length) v val v2 le_rfl hr
        rw [hv2] at h
        obtain ⟨hlen, ⟨t, ht⟩, hval⟩ := ih k (v ++ [val]) v₁ a h
        refine ⟨?_, ⟨val :: t, by rw [ht]; simp⟩, hval⟩
        rw [hlen]
        simp only [List.length_append, List.length_cons, List.length_nil]
        omega
      next v2 hr => cases h
      next => cases h

theorem runP_keys {I O : Type} [DecidableEq I] {μ : I → Nat}
    {view : I → CState I O → Res (CState I O) O}
    (hview : ∀ j s s₁, resSt (view j s) = some s₁ →
      ∀ k', lookupA s.entries k' = none → ¬lookupA s₁.entries k' = none → μ k' ≤ μ j)
    {m : Nat} (p : Prog I O) (hp : KeysLt μ m p) :
    ∀ (s s₁ : CState I O), resSt (runP view p s) = some s₁ →
      ∀ k', lookupA s.entries k' = none → ¬lookupA s₁.entries k' = none → μ k' < m := by
  induction hp with
  | ret w =>
    intro s s₁ h k' h0 h1
    simp [runP, resSt] at h
    exact absurd (h ▸ h0) h1
  | abort =>
    intro s s₁ h k' h0 h1
    simp [runP, resSt] at h
    exact absurd (h ▸ h0) h1
  | getv j cont hj hcont ih =>
    intro s s₁ h k' h0 h1
    simp only [runP] at h
    cases hv : view j s with
    | ok w s2 =>
      rw [hv] at h
      by_cases h2 : lookupA s2.entries k' = none
      · exact ih w s2 s₁ h k' h2 h1
      · exact lt_of_le_of_lt (hview j s s2 (by rw [hv]; rfl) k' h0 h2) hj
    | fault s2 =>
      rw [hv] at h
      have hs : s2 = s₁ := by simpa [resSt] using h
      exact lt_of_le_of_lt (hview j s s2 (by rw [hv]; rfl) k' h0 (hs ▸ h1)) hj
    | timeout =>
      rw [hv] at h
      simp [resSt] at h

theorem getF_keys {I O : Type} [DecidableEq I] {μ : I → Nat} (f : I → Prog I O)
    (hwf : ∀ j, KeysLt μ (μ j) (f j)) :
    ∀ (n : Nat) (j : I) (s s₁ : CState I O), resSt (getF f n j s) = some s₁ →
      ∀ k', lookupA s.entries k' = none → ¬lookupA s₁.entries k' = none →
        μ k' ≤ μ j := by
  intro n
  induction n with
  | zero => intro j s s₁ h; simp [getF, resSt] at h
  | succ n ih =>
    intro j s s₁ h k' h0 h1
    rw [getF] at h
    split at h
    next w hl =>
      have hs : s = s₁ := by simpa [resSt] using h
      exact absurd (hs ▸ h0) h1
    next hl =>
      split at h
      next val s2 hr =>
        have hs : ⟨(putA s2.entries j val).2, s2.calls⟩ = s₁ := by
          simpa [resSt] using h
        by_cases h2 : lookupA s2.entries k' = none
        · rcases hlj : lookupA s2.entries j with _ | wj
          · have hsk : lookupA s₁.entries k' = if j = k' then some val else none := by
              rw [← hs]
              simp only []
              rw [putA]
              rw [hlj]
              exact lookupA_append_single val h2
            by_cases hjk : j = k'
            · rw [← hjk]
            · rw [hsk, if_neg hjk] at h1
              exact absurd rfl h1
          · have hsk : lookupA s₁.entries k' = none := by
              rw [← hs]
              simp only []
              rw [putA]
              rw [hlj]
              exact h2
            exact absurd hsk h1
        · exact le_of_lt (runP_keys
            (fun j2 s3 s4 hh k2 ha hb => ih j2 s3 s4 hh k2 ha hb)
            (f j) (hwf j) ⟨s.entries, s.calls + 1⟩ s2 (by rw [hr]; rfl) k' h0 h2)
      next s2 hr =>
        have hs : s2 = s₁ := by simpa [resSt] using h
        exact le_of_lt (runP_keys
          (fun j2 s3 s4 hh k2 ha hb => ih j2 s3 s4 hh k2 ha hb)
          (f j) (hwf j) ⟨s.entries, s.calls + 1⟩ s2 (by rw [hr]; rfl) k' h0 (hs ▸ h1))
      next => simp [resSt] at h

/-- C1: `put` is insert-if-absent (`Cache::put` for `HashMap`, i.e.
`entry(input).or_insert(output)`): for every container state and key, if the
key is already present `put` returns the existing stored value and leaves the
container unchanged, discarding the fresh value; if the key is absent it
stores the value under the key and returns it, and a lookup afterwards finds
it. -/
theorem put_insert_if_absent {I O : Type} [DecidableEq I]
    (m : List (I × O)) (k : I) (v : O) :
    (∀ w, lookupA m k = some w → putA m k v = (w, m)) ∧
    (lookupA m k = none →
      putA m k v = (v, m ++ [(k, v)]) ∧ lookupA (putA m k v).2 k = some v) := by
  constructor
  · intro w hw
    simp [putA, hw]
  · intro hn
    refine ⟨by simp [putA, hn], ?_⟩
    rw [putA_lookup m k v]
    simp [putA, hn]

/-- Witness for C1 at concrete inputs: a present key keeps its stored value
and the map, an absent key is stored and found. -/
theorem put_insert_if_absent_witness :
    putA [((1 : Nat), (10 : Nat))] 1 99 = (10, [(1, 10)]) ∧
    putA ([] : List (Nat × Nat)) 2 5 = (5, [(2, 5)]) :=
  ⟨(put_insert_if_absent [((1 : Nat), (10 : Nat))] 1 99).1 10 (by decide),
   ((put_insert_if_absent ([] : List (Nat × Nat)) 2 5).2 (by decide)).1⟩

/-- C2: `get` is idempotent: whenever a `get` of `k` returns value `v` in
state `s₁`, a second `get` of `k` returns a value equal to `v` and the state
`s₁` exactly unchanged — in particular the rule-invocation counter and the
container length are unchanged, so the second call is a pure cache hit that
invokes the rule zero times and performs no mutation. -/
theorem get_idempotent {I O : Type} [DecidableEq I] (f : I → Prog I O)
    (n m : Nat) (k : I) (s s₁ : CState I O) (v : O)
    (h : getF f n k s = .ok v s₁) :
    getF f (m + 1) k s₁ = .ok v s₁ :=
  getF_hit f m k s₁ v (getF_ok_lookup f n k s s₁ v h)

/-- Witness for C2: after `get 1` on an empty cache with the successor rule,
a second `get 1` returns the same value and the identical state. -/
theorem get_idempotent_witness :
    getF cRule 5 1 ⟨[(0, 0), (1, 1)], 2⟩ = .ok 1 ⟨[(0, 0), (1, 1)], 2⟩ :=
  get_idempotent cRule 3 4 1 ⟨[], 0⟩ ⟨[(0, 0), (1, 1)], 2⟩ 1 (by decide)

/-- Counterexample to C3 as stated: with the recursive rule `cRule` the key
`1` is absent from the empty cache, yet `get 1` grows the container from
length `0` to length `2` (the recursive lookup installs key `0` as well), not
by exactly 1. -/
theorem lazy_population_counterexample :
    hasA ([] : List (Nat × Nat)) 1 = false ∧
    getF cRule 3 1 ⟨[], 0⟩ = .ok 1 ⟨[(0, 0), (1, 1)], 2⟩ ∧
    ¬(([(0, 0), (1, 1)] : List (Nat × Nat)).length =
      ([] : List (Nat × Nat)).length + 1) := by
  decide

/-- C3 (amended): before any `get`, `has(k)` is false for every `k` (the
initial container is empty); after a successful `get(k)`, `has(k)` is true;
if `k` was already present the state is entirely unchanged; if `k` was absent
the length increases by at least 1, and by exactly 1 when the rule performs
no recursive lookups (a simple, non-recursive rule). -/
theorem lazy_population_amended {I O : Type} [DecidableEq I]
    (f : I → Prog I O) (n : Nat) (k k₀ : I) (s s₁ : CState I O) (v : O)
    (h : getF f n k s = .ok v s₁) :
    hasA ([] : List (I × O)) k₀ = false ∧
    hasA s₁.entries k = true ∧
    (hasA s.entries k = true → s₁ = s) ∧
    (hasA s.entries k = false → s.entries.length + 1 ≤ s₁.entries.length) ∧
    (∀ g : I → O, f = (fun j => Prog.ret (g j)) → hasA s.entries k = false →
      s₁.entries.length = s.entries.length + 1) := by
  have hlook := getF_ok_lookup f n k s s₁ v h
  refine ⟨rfl, hasA_eq_true.mpr ⟨v, hlook⟩, ?_, ?_, ?_⟩
  · intro hp
    obtain ⟨w, hw⟩ := hasA_eq_true.mp hp
    cases n with
    | zero => simp [getF] at h
    | succ n =>
      rw [getF_hit f n k s w hw] at h
      cases h
      rfl
  · intro ha
    have hn := hasA_eq_false.mp ha
    obtain ⟨t, ht⟩ := getF_ext f n k s s₁ (by rw [h]; rfl)
    cases t with
    | nil =>
      rw [ht] at hlook
      simp at hlook
      rw [hn] at hlook
      cases hlook
    | cons x r =>
      rw [ht]
      simp only [List.length_append, List.length_cons]
      omega
  · intro g hg ha
    have hn := hasA_eq_false.mp ha
    subst hg
    cases n with
    | zero => simp [getF] at h
    | succ n =>
      rw [getF] at h
      rw [hn] at h
      have hstep : runP (fun k2 s2 => getF (fun j => Prog.ret (g j)) n k2 s2)
          (Prog.ret (g k)) ⟨s.entries, s.calls + 1⟩ =
          .ok (g k) ⟨s.entries, s.calls + 1⟩ := rfl
      rw [hstep] at h
      cases h
      simp [putA, hn]

/-- Witness for C3 (amended): the empty container has nothing; after a
recursive `get 1` on the empty cache the key is present and the length grew
by at least 1; a simple (non-recursive) get on an absent key grows the
length by exactly 1. -/
theorem lazy_population_witness :
    hasA ([] : List (Nat × Nat)) 5 = false ∧
    hasA ([(0, 0), (1, 1)] : List (Nat × Nat)) 1 = true ∧
    ([] : List (Nat × Nat)).length + 1 ≤
      ([(0, 0), (1, 1)] : List (Nat × Nat)).length ∧
    ([((1 : Nat), (7 : Nat))] : List (Nat × Nat)).length =
      ([] : List (Nat × Nat)).length + 1 := by
  refine ⟨?_, ?_, ?_, ?_⟩
  · exact (lazy_population_amended cRule 3 1 5 ⟨[], 0⟩ ⟨[(0, 0), (1, 1)], 2⟩ 1
      (by decide)).1
  · exact (lazy_population_amended cRule 3 1 5 ⟨[], 0⟩ ⟨[(0, 0), (1, 1)], 2⟩ 1
      (by decide)).2.1
  · exact (lazy_population_amended cRule 3 1 5 ⟨[], 0⟩ ⟨[(0, 0), (1, 1)], 2⟩ 1
      (by decide)).2.2.2.1 (by decide)
  · exact (lazy_population_amended (fun j => Prog.ret (j + 6)) 1 1 5 ⟨[], 0⟩
      ⟨[(1, 7)], 1⟩ 7 (by decide)).2.2.2.2 (fun j => j + 6) rfl (by decide)

/-- C4: batch retrieval equivalence and ordering, for the map-backed
`get_many` and the `VecCache` `get_many` alike: whenever the sequential
left-to-right `get` calls on the input keys succeed with final state `s₁`,
`get_many` on the same keys succeeds with exactly that final state, returns
one value per input key, and position `i` of the result holds precisely the
value stored for the `i`-th input key in the final state. -/
theorem get_many_equiv {I O P : Type} [DecidableEq I] (f : I → Prog I O)
    (n : Nat) (ks : List I) (s s₁ : CState I O)
    (g : Nat → Prog Nat P) (m : Nat) (js : List Nat) (v v₁ : List P) :
    (getsF f n ks s = .ok () s₁ →
      ∃ vs, getManyF f n ks s = .ok vs s₁ ∧ vs.length = ks.length ∧
        ∀ (i : Nat) (k : I), ks[i]? = some k →
          ∃ w, vs[i]? = some w ∧ lookupA s₁.entries k = some w) ∧
    (vgetsF g m js v = .ok () v₁ →
      ∃ ws, vgetManyF g m js v = .ok ws v₁ ∧ ws.length = js.length ∧
        ∀ (i j : Nat), js[i]? = some j →
          ∃ w, ws[i]? = some w ∧ v₁[j]? = some w) := by
  constructor
  · intro h
    obtain ⟨vs, hvs, hlen, hcorr⟩ :=
      lookupMany_of s₁.entries ks (getsF_mem f n ks s s₁ h)
    exact ⟨vs, by simp [getManyF, h, hvs], hlen, hcorr⟩
  · intro h
    obtain ⟨ws, hws, hlen, hcorr⟩ :=
      vlookupMany_of v₁ js (vgetsF_mem g m js v v₁ h)
    exact ⟨ws, by simp [vgetManyF, h, hws], hlen, hcorr⟩

/-- Witness for C4: concrete batch retrievals through both the map-backed
cache and the vec-backed cache agree with the corresponding sequential gets
on final state, and return one value per key. -/
theorem get_many_equiv_witness :
    (∃ vs, getManyF cRule 4 [2, 1] ⟨[], 0⟩ =
        .ok vs ⟨[(0, 0), (1, 1), (2, 2)], 3⟩ ∧ vs.length = 2) ∧
    (∃ ws, vgetManyF c5f 4 [1, 0] [] = .ok ws [1, 2] ∧ ws.length = 2) := by
  obtain ⟨vs, hvs, hlen, _⟩ := (get_many_equiv cRule 4 [2, 1] ⟨[], 0⟩
    ⟨[(0, 0), (1, 1), (2, 2)], 3⟩ c5f 4 [1, 0] [] [1, 2]).1 (by decide)
  obtain ⟨ws, hws, hlen2, _⟩ := (get_many_equiv cRule 4 [2, 1] ⟨[], 0⟩
    ⟨[(0, 0), (1, 1), (2, 2)], 3⟩ c5f 4 [1, 0] [] [1, 2]).2 (by decide)
  exact ⟨⟨vs, hvs, hlen⟩, ⟨ws, hws, hlen2⟩⟩

theorem c5f_below : ∀ i, Below i (c5f i) := by
  intro i
  cases i with
  | zero => exact Below.ret 1
  | succ j =>
    refine Below.getv j _ (Nat.lt_succ_self j) ?_
    intro w
    exact Below.ret (w * 2)

/-- C5: dense-array gapless fill: for every rule whose recursive lookups
stay strictly below the index being computed, a successful `get k` on the
empty vec-backed cache leaves length exactly `k + 1`, every index `0..=k`
present, and a subsequent `get` of any filled (in particular any lower)
index returns the stored element with the state unchanged — the rule is not
invoked again. -/
theorem vec_gapless_fill {O : Type} (f : Nat → Prog Nat O)
    (hb : ∀ i, Below i (f i)) (n k : Nat) (a : O) (v₁ : List O)
    (h : vgetF f n k [] = .ok a v₁) :
    v₁.length = k + 1 ∧
    (∀ i, i ≤ k → i < v₁.length) ∧
    (∀ (j : Nat) (hj : j < v₁.length) (m : Nat),
      vgetF f (m + 1) j v₁ = .ok (v₁.get ⟨j, hj⟩) v₁) := by
  obtain ⟨hlen, _, _⟩ := vgetF_fill f hb n k [] v₁ a h
  simp only [List.length_nil, Nat.max_eq_right (Nat.succ_le_succ (Nat.zero_le k))] at hlen
  refine ⟨hlen, ?_, ?_⟩
  · intro i hi
    omega
  · intro j hj m
    exact vget_hit f m j v₁ hj

/-- Witness for C5: filling index 3 of the doubling rule from the empty
cache yields the four entries `[1, 2, 4, 8]`, and a later `get 2` is a pure
hit returning `4` with the state unchanged. -/
theorem vec_gapless_fill_witness :
    ([1, 2, 4, 8] : List Nat).length = 3 + 1 ∧
    vgetF c5f 7 2 [1, 2, 4, 8] = .ok 4 [1, 2, 4, 8] := by
  refine ⟨(vec_gapless_fill c5f c5f_below 10 3 8 [1, 2, 4, 8] (by decide)).1, ?_⟩
  exact (vec_gapless_fill c5f c5f_below 10 3 8 [1, 2, 4, 8]
    (by decide)).2.2 2 (by decide) 6

theorem lookupA_eq_none_of_not_mem {I O : Type} [DecidableEq I]
    {m : List (I × O)} {k : I} (h : k ∉ m.map Prod.fst) : lookupA m k = none := by
  induction m with
  | nil => rfl
  | cons a r ih =>
    cases a with
    | mk x y =>
      simp only [List.map_cons, List.mem_cons] at h
      push_neg at h
      rw [lookupA, if_neg (fun hxk => h.1 hxk.symm)]
      exact ih h.2

theorem fRule_keys : ∀ j, KeysLt (fun i => i) ((fun i : Nat => i) j) (fRule j) := by
  intro j
  cases j with
  | zero => exact KeysLt.abort
  | succ i =>
    refine KeysLt.getv i _ (Nat.lt_succ_self i) ?_
    intro w
    exact KeysLt.ret w

theorem getsF_append_ok {I O : Type} [DecidableEq I] (f : I → Prog I O) (m : Nat) :
    ∀ (ks1 ks2 : List I) (s0 s : CState I O), getsF f m ks1 s0 = .ok () s →
      getsF f m (ks1 ++ ks2) s0 = getsF f m ks2 s := by
  intro ks1
  induction ks1 with
  | nil =>
    intro ks2 s0 s h
    have h2 : s0 = s := by simpa [getsF] using h
    rw [List.nil_append, h2]
  | cons k0 t ih =>
    intro ks2 s0 s h
    rw [getsF] at h
    split at h
    next u s2 hk0 =>
      rw [List.cons_append, getsF, hk0]
      exact ih ks2 s2 s h
    next s2 hk0 => cases h
    next => cases h

/-- C6: error propagation and atomicity.  If the rule faults while computing
an absent key `k` (for every rule whatsoever): the `get` returns exactly the
rule's fault, unmediated (never caught, retried, or replaced by a default);
every entry present before the call, and every entry installed by
already-completed nested sub-calls, remains — the entry list is only
extended; the cache stays usable afterwards, every stored key still being a
pure hit; for every rule with measure-decreasing (acyclic) recursive
dependencies — cycles are the spec's documented caller misuse — no entry for
`k` is inserted; and the fault propagates out of `get_many` just as
unmediated: a batch whose earlier keys completed and whose next key is `k`
faults with the same state, the entries installed by the completed earlier
keys of the batch remaining. -/
theorem fault_propagation {I O : Type} [DecidableEq I] (f : I → Prog I O)
    (n : Nat) (k : I) (s s₁ : CState I O)
    (habs : lookupA s.entries k = none)
    (hrun : runP (fun k2 s2 => getF f n k2 s2) (f k)
      ⟨s.entries, s.calls + 1⟩ = .fault s₁) :
    getF f (n + 1) k s = .fault s₁ ∧
    (∃ t, s₁.entries = s.entries ++ t) ∧
    (∀ k' w, lookupA s₁.entries k' = some w →
      ∀ m, getF f (m + 1) k' s₁ = .ok w s₁) ∧
    (∀ μ : I → Nat, (∀ j, KeysLt μ (μ j) (f j)) →
      lookupA s₁.entries k = none) ∧
    (∀ (ks1 ks2 : List I) (s0 : CState I O),
      getsF f (n + 1) ks1 s0 = .ok () s →
      getManyF f (n + 1) (ks1 ++ k :: ks2) s0 = .fault s₁ ∧
      ∃ t, s₁.entries = s0.entries ++ t) := by
  have hfault : getF f (n + 1) k s = .fault s₁ := by
    rw [getF]
    rw [habs, hrun]
  have hext : ∃ t, s₁.entries = s.entries ++ t :=
    runP_ext (E := fun a b : CState I O => ∃ t, b.entries = a.entries ++ t)
      (fun a => ⟨[], by simp⟩)
      (fun a b c hab hbc => by
        obtain ⟨u1, hu1⟩ := hab
        obtain ⟨u2, hu2⟩ := hbc
        exact ⟨u1 ++ u2, by rw [hu2, hu1, List.append_assoc]⟩)
      (fun k2 s3 s4 hh => getF_ext f n k2 s3 s4 hh)
      (f k) ⟨s.entries, s.calls + 1⟩ s₁ (by rw [hrun]; rfl)
  refine ⟨hfault, hext, ?_, ?_, ?_⟩
  · intro k' w hw m
    exact getF_hit f m k' s₁ w hw
  · intro μ hwf
    by_contra hker
    exact lt_irrefl (μ k) (runP_keys
      (fun j2 s3 s4 hh k2 ha hb => getF_keys f hwf n j2 s3 s4 hh k2 ha hb)
      (f k) (hwf k) ⟨s.entries, s.calls + 1⟩ s₁ (by rw [hrun]; rfl) k habs hker)
  · intro ks1 ks2 s0 hpre
    have hstep : getsF f (n + 1) (ks1 ++ k :: ks2) s0 = .fault s₁ := by
      rw [getsF_append_ok f (n + 1) ks1 (k :: ks2) s0 s hpre]
      rw [getsF, hfault]
    constructor
    · simp [getManyF, hstep]
    · obtain ⟨t1, h1⟩ := getsF_ext f (n + 1) ks1 s0 s (by rw [hpre]; rfl)
      obtain ⟨t2, h2⟩ := hext
      exact ⟨t1 ++ t2, by rw [h2, h1, List.append_assoc]⟩

/-- Witness for C6: the rule that panics at key `0` makes `get 1` on a cache
holding `(5, 42)` fault; the old entry survives and key `5` is still a pure
hit; the rule is measure-decreasing, so the faulted key `1` is absent
afterwards; and `get_many [5, 1, 7]` faults with the same state after its
completed first key. -/
theorem fault_propagation_witness :
    getF fRule 3 1 ⟨[(5, 42)], 0⟩ = .fault ⟨[(5, 42)], 2⟩ ∧
    getF fRule 1 5 ⟨[(5, 42)], 2⟩ = .ok 42 ⟨[(5, 42)], 2⟩ ∧
    lookupA ([(5, 42)] : List (Nat × Nat)) 1 = none ∧
    getManyF fRule 3 [5, 1, 7] ⟨[(5, 42)], 0⟩ = .fault ⟨[(5, 42)], 2⟩ := by
  have h := fault_propagation fRule 2 1 ⟨[(5, 42)], 0⟩ ⟨[(5, 42)], 2⟩
    (by decide) (by decide)
  refine ⟨h.1, h.2.2.1 5 42 (by decide) 0, h.2.2.2.1 (fun i => i) fRule_keys, ?_⟩
  exact (h.2.2.2.2 [5] [7] ⟨[(5, 42)], 0⟩ (by decide)).1

/-- C7: removal (`HashCache::remove`, `CacheRemove` for `HashMap`): on a
container with distinct keys (the `HashMap` invariant), removing a present
key returns its stored value, makes `has` false, and decreases the length by
exactly 1; removing an absent key returns `none` and leaves the container —
length and all stored entries — unchanged. -/
theorem remove_spec {I O : Type} [DecidableEq I] (m : List (I × O)) (k : I)
    (hnd : (m.map Prod.fst).Nodup) :
    (∀ w, lookupA m k = some w →
      (removeA m k).1 = some w ∧ hasA (removeA m k).2 k = false ∧
      (removeA m k).2.length + 1 = m.length) ∧
    (lookupA m k = none → removeA m k = (none, m)) := by
  induction m with
  | nil =>
    refine ⟨?_, fun _ => rfl⟩
    intro w hw
    simp [lookupA] at hw
  | cons a r ih =>
    cases a with
    | mk x y =>
      simp only [List.map_cons, List.nodup_cons] at hnd
      obtain ⟨hx, hr⟩ := hnd
      refine ⟨?_, ?_⟩
      · intro w hw
        rw [lookupA] at hw
        by_cases hxk : x = k
        · rw [if_pos hxk] at hw
          cases hw
          subst hxk
          refine ⟨by simp [removeA], ?_, by simp [removeA]⟩
          have h2 : (removeA ((x, y) :: r) x).2 = r := by simp [removeA]
          rw [h2, hasA_eq_false]
          exact lookupA_eq_none_of_not_mem hx
        · rw [if_neg hxk] at hw
          obtain ⟨h1, h2, h3⟩ := (ih hr).1 w hw
          refine ⟨by simpa [removeA, hxk] using h1, ?_, ?_⟩
          · have h4 : (removeA ((x, y) :: r) k).2 = (x, y) :: (removeA r k).2 := by
              simp [removeA, hxk]
            rw [h4, hasA_eq_false, lookupA, if_neg hxk]
            exact hasA_eq_false.mp h2
          · have h4 : (removeA ((x, y) :: r) k).2 = (x, y) :: (removeA r k).2 := by
              simp [removeA, hxk]
            rw [h4]
            simp only [List.length_cons]
            omega
      · intro hn
        rw [lookupA] at hn
        by_cases hxk : x = k
        · rw [if_pos hxk] at hn
          cases hn
        · rw [if_neg hxk] at hn
          have hres := (ih hr).2 hn
          simp [removeA, hxk, hres]

/-- Witness for C7: removing the present key `1` from `[(1,10),(2,20)]`
yields its value and drops it; removing the absent key `3` is an explicit
`none` leaving the container untouched. -/
theorem remove_spec_witness :
    (removeA ([((1 : Nat), (10 : Nat)), (2, 20)]) 1).1 = some 10 ∧
    hasA (removeA ([((1 : Nat), (10 : Nat)), (2, 20)]) 1).2 1 = false ∧
    (removeA ([((1 : Nat), (10 : Nat)), (2, 20)]) 1).2.length + 1 = 2 ∧
    removeA ([((1 : Nat), (10 : Nat)), (2, 20)]) 3 = (none, [(1, 10), (2, 20)]) := by
  have h := remove_spec ([((1 : Nat), (10 : Nat)), (2, 20)]) 1 (by decide)
  have h3 := remove_spec ([((1 : Nat), (10 : Nat)), (2, 20)]) 3 (by decide)
  obtain ⟨h1, h2, hlen⟩ := h.1 10 (by decide)
  exact ⟨h1, h2, hlen, h3.2 (by decide)⟩

/-- C8: Fibonacci end-to-end on the hash-backed cache model: `get 10` on the
empty cache returns `55`; afterwards every key `0..=10` is present and the
length is `11`; a second `get 10` returns `55` with the state — hence the
length — unchanged. -/
theorem fib_end_to_end :
    getF fibRule 32 10 ⟨[], 0⟩ = .ok 55 fibS ∧
    ((List.range 11).all fun k => hasA fibS.entries k) = true ∧
    fibS.entries.length = 11 ∧
    getF fibRule 32 10 fibS = .ok 55 fibS := by
  decide

/-- Counterexample to C9 as stated: the claim quantifies over every cache,
but `HashCache::compute` (hash_cache.rs, cited by the claim) passes
`&mut self` — the whole cache — to the rule, whose public `clear`, `reserve`
and `remove` are then available mid-computation (likewise `VecCache` and
`BTreeCache`).  Concretely, a rule that calls `clear` during an in-flight
`get` erases the pre-existing entry `(9, 7)`: present before the call, gone
after it. -/
theorem view_restriction_counterexample :
    lookupA ([(9, 7)] : List (Nat × Nat)) 9 = some 7 ∧
    hgetF hcRule 2 1 ⟨[(9, 7)], 0⟩ = .ok 5 ⟨[(1, 5)], 1⟩ ∧
    lookupA ([(1, 5)] : List (Nat × Nat)) 9 = none := by
  decide

/-- C9 (amended): for the caches whose rules receive the restricted
`RefCache` handle — `GenericCache` and `RawCache` — the handle exposes only
the `get`/`get_many` operations (modelled by rule programs whose sole
operation is the view get) and none of clear/reserve/remove, so such a rule
can never remove or relocate entries: any run of any rule program only
appends to the entry list, and every entry the outer in-flight call depends
on survives with its value.  (The facade caches `HashCache`, `VecCache`,
`BTreeCache` instead pass the cache itself to the rule, so no such guarantee
holds there — see the counterexample.) -/
theorem view_preserves_entries {I O : Type} [DecidableEq I] (f : I → Prog I O)
    (n : Nat) (p : Prog I O) (s s₁ : CState I O)
    (h : resSt (runP (fun k2 s2 => getF f n k2 s2) p s) = some s₁) :
    (∃ t, s₁.entries = s.entries ++ t) ∧
    ∀ k w, lookupA s.entries k = some w → lookupA s₁.entries k = some w := by
  have hext := runP_ext
    (E := fun a b : CState I O => ∃ t, b.entries = a.entries ++ t)
    (fun a => ⟨[], by simp⟩)
    (fun a b c hab hbc => by
      obtain ⟨u1, hu1⟩ := hab
      obtain ⟨u2, hu2⟩ := hbc
      exact ⟨u1 ++ u2, by rw [hu2, hu1, List.append_assoc]⟩)
    (fun k2 s3 s4 hh => getF_ext f n k2 s3 s4 hh) p s s₁ h
  refine ⟨hext, ?_⟩
  intro k w hw
  obtain ⟨t, ht⟩ := hext
  rw [ht]
  exact lookupA_append_some t hw

/-- Witness for C9 (amended): a `RefCache`-restricted rule program looking
up key `0` against a cache holding `(9, 7)` leaves the pre-existing entry in
place with its value. -/
theorem view_preserves_entries_witness :
    lookupA ([(9, 7), (0, 0)] : List (Nat × Nat)) 9 = some 7 :=
  (view_preserves_entries cRule 2 (Prog.getv 0 (fun w => Prog.ret w))
    ⟨[(9, 7)], 0⟩ ⟨[(9, 7), (0, 0)], 1⟩ (by decide)).2 9 7 (by decide)

/-- C10: dense-array entries are append-only: for every rule (which can only
touch the cache through the view), any `get` or `get_many` on the vec-backed
cache leaves all previously stored entries unchanged in value and position —
the final vec is the old vec with a (possibly empty) suffix appended. -/
theorem vec_append_only {O : Type} (f : Nat → Prog Nat O) (n k : Nat)
    (ks : List Nat) (v : List O) :
    (∀ v₁, resSt (vgetF f n k v) = some v₁ → ∃ t, v₁ = v ++ t) ∧
    (∀ v₁, resSt (vgetManyF f n ks v) = some v₁ → ∃ t, v₁ = v ++ t) := by
  constructor
  · intro v₁ h
    exact vgetF_ext f n k v v₁ h
  · intro v₁ h
    rw [vgetManyF] at h
    split at h
    next u v2 hv =>
      have h2 : v₁ = v2 := by
        cases hl : vlookupMany v2 ks with
        | some ws =>
          rw [hl] at h
          simp [resSt] at h
          exact h.symm
        | none =>
          rw [hl] at h
          simp [resSt] at h
          exact h.symm
      rw [h2]
      exact vgetsF_ext f n ks v v2 (by rw [hv]; rfl)
    next v2 hv =>
      have h2 : v₁ = v2 := by
        simp [resSt] at h
        exact h.symm
      rw [h2]
      exact vgetsF_ext f n ks v v2 (by rw [hv]; rfl)
    next => simp [resSt] at h

/-- Witness for C10: a concrete `get` and `get_many` on the doubling rule
extend the previously stored elements without disturbing them. -/
theorem vec_append_only_witness :
    (∃ t, ([1, 2, 4] : List Nat) = [1] ++ t) ∧
    (∃ t, ([1, 2] : List Nat) = [] ++ t) :=
  ⟨(vec_append_only c5f 4 2 [0] [1]).1 [1, 2, 4] (by decide),
   (vec_append_only c5f 4 1 [1, 0] []).2 [1, 2] (by decide)⟩

end FnCacheModel
